import Mathlib

/-!
Verification of the merged-filesystem core of `dvc/tree/repo.py` (class
`RepoTree`): a virtual view merging a working tree (ordinary filesystem)
with a managed tree (`DvcTree`, content-addressable view of tracked
outputs), including the merged recursive walk, per-path metadata and
existence resolution with shadowing, and the lazy path-to-repo resolver
built on a prefix trie.

Embedding conventions:
* The two underlying trees (`BaseTree` / `DvcTree`) are external
  collaborators; they are modelled as oracles: per-path boolean and
  `Option`-valued functions (`Option.none` models a raised
  `FileNotFoundError`, a swallowed `OSError`/`ValueError` on `stat`,
  or an exhausted/empty walk).
* Python exceptions escaping a `RepoTree` method are modelled with
  `Except Err`; the fatal `(out,) = meta.outs` tuple-unpacking failure
  on a metadata record whose `outs` has cardinality other than one is
  `Err.invariant`.
* Directory contents are the inductive `FsDir`; a tree's `walk` of a
  path is the depth-first pre-order enumeration of the `FsDir` the
  oracle reports at that path.  The Python generators steer recursion
  by mutating the yielded `dirs` list in place
  (`dvc_dirs[:] = ...`, `repo_dirs[:] = ...` in `RepoTree._walk`); in
  the model this positional steering is realized by recursing directly
  into the named child of each side's directory structure, which is
  what the steering lists make the generators do.
* Python `set(...)` has unspecified enumeration order; the model fixes
  a canonical order with `dedupB` (keeps the last occurrence).  The
  claims under verification only depend on membership and on the order
  of the three groups `shared`, `dvc_only`, `repo_only`, never on the
  order inside one group.
-/

/-- Exceptions that can escape a `RepoTree` method. -/
inductive Err where
  | notFound
  | notADirectory
  | invariant
  | assertionFailed
  | attrError
deriving DecidableEq, Repr

/-- The bits of a working-tree `stat` result the code inspects:
`stat.S_ISDIR`, `stat.S_ISREG` and the executable bit (`is_exec`). -/
structure StatRec where
  isDir : Bool
  isReg : Bool
  isExec : Bool
deriving DecidableEq, Repr

/-- One covering output of a managed metadata record: the code only uses
its defining root path (`out.path_info`). -/
structure OutRec where
  path_info : String
deriving DecidableEq, Repr

/-- A managed-tree metadata record (`DvcTree.metadata` result) and also the
record `RepoTree.metadata` returns: covering outputs plus the
`isdir`/`isfile`/`is_exec` flags. -/
structure MetaRec where
  outs : List OutRec
  isdir : Bool
  isfile : Bool
  is_exec : Bool
deriving DecidableEq, Repr

/-- Names of an `FsDir`'s child directories paired with their contents,
and its plain file names.  Models one tree's on-disk structure below a
fixed path, i.e. what its `walk` generator enumerates. -/
inductive FsDir where
  | node : List (String × FsDir) → List String → FsDir
deriving Repr

/-- Child directory list of a directory. -/
def FsDir.children : FsDir → List (String × FsDir)
  | .node cs _ => cs

/-- File names directly inside a directory. -/
def FsDir.fileNames : FsDir → List String
  | .node _ fs => fs

/-- Child directory names, in listing order. -/
def FsDir.dirNames (d : FsDir) : List String :=
  d.children.map (fun c => c.1)

/-- The child directory with the given name, when present (first match). -/
def FsDir.childNamed (d : FsDir) (nm : String) : Option FsDir :=
  (d.children.find? (fun c => c.1 == nm)).map (fun c => c.2)

/-- The working tree of a resolved repo, as the oracle interface
`RepoTree` consumes (`BaseTree`): `exists`, `stat` (`none` models a
swallowed `OSError`/`ValueError`/`FileNotFoundError`), `info` (`none`
models `FileNotFoundError`) and the directory structure its `walk`
enumerates below a path (`none` models an absent path, whose walk
yields nothing). -/
structure WorkTreeM where
  wexists : String → Bool
  stat : String → Option StatRec
  winfo : String → Option Nat
  walkAt : String → Option FsDir

/-- The managed tree of a resolved repo (`DvcTree`), as the oracle
interface `RepoTree` consumes: `metadata` (`none` models
`FileNotFoundError`), `exists`, `isdvc`, `info` and the structure its
`walk` enumerates below a path. -/
structure DvcTreeM where
  metadata : String → Option MetaRec
  dexists : String → Bool
  isdvc : String → Bool
  dinfo : String → Except Err Nat
  walkAt : String → Option FsDir

/-- `RepoTree.exists` (repo.py lines 143-163): the pair
`(tree, dvc_tree)` is what `_get_tree_pair` resolved for the path.
Without a managed tree, delegate to the working tree.  Otherwise a
working-tree hit wins; on a miss, fetch managed metadata (not-found
gives `False`), unpack its single covering output — a cardinality other
than one raises — and shadow the managed hit when the output's own path
exists on the working tree. -/
def RepoTree.existsP (tree : WorkTreeM) (dvcTree : Option DvcTreeM) (path : String) :
    Except Err Bool :=
  match dvcTree with
  | none => .ok (tree.wexists path)
  | some dvc =>
    if tree.wexists path then .ok true
    else
      match dvc.metadata path with
      | none => .ok false
      | some meta =>
        match meta.outs with
        | [out] => if tree.wexists out.path_info then .ok false else .ok true
        | _ => .error .invariant

/-- `RepoTree.isdir` (repo.py lines 165-187): a successful working-tree
`stat` decides with its directory bit; a failed stat falls back to
managed metadata under the same single-output shadow rule, answering the
metadata record's `isdir`. -/
def RepoTree.isdir (tree : WorkTreeM) (dvcTree : Option DvcTreeM) (path : String) :
    Except Err Bool :=
  match tree.stat path with
  | some st => .ok st.isDir
  | none =>
    match dvcTree with
    | none => .ok false
    | some dvc =>
      match dvc.metadata path with
      | none => .ok false
      | some meta =>
        match meta.outs with
        | [out] => if tree.wexists out.path_info then .ok false else .ok meta.isdir
        | _ => .error .invariant

/-- `RepoTree.isfile` (repo.py lines 193-215): same shape as `isdir`
with the regular-file bit and the metadata record's `isfile`. -/
def RepoTree.isfile (tree : WorkTreeM) (dvcTree : Option DvcTreeM) (path : String) :
    Except Err Bool :=
  match tree.stat path with
  | some st => .ok st.isReg
  | none =>
    match dvcTree with
    | none => .ok false
    | some dvc =>
      match dvc.metadata path with
      | none => .ok false
      | some meta =>
        match meta.outs with
        | [out] => if tree.wexists out.path_info then .ok false else .ok meta.isfile
        | _ => .error .invariant

/-- `RepoTree.metadata` (repo.py lines 390-421): tolerate a managed
metadata miss and a working-tree stat miss, fail with not-found only
when both miss; otherwise start from the managed record (or a
synthesized empty one), OR the working stat's directory bit into
`isdir`, and only when there was no managed record take `is_exec` from
the stat bits. -/
def RepoTree.metadata (tree : WorkTreeM) (dvcTree : Option DvcTreeM) (path : String) :
    Except Err MetaRec :=
  let dvcMeta : Option MetaRec :=
    match dvcTree with
    | some dvc => dvc.metadata path
    | none => none
  let statResult := tree.stat path
  match dvcMeta, statResult with
  | none, none => .error .notFound
  | _, _ =>
    let base : MetaRec :=
      match dvcMeta with
      | some m => m
      | none => ⟨[], false, false, false⟩
    let isdirStat : Bool :=
      match statResult with
      | some st => st.isDir
      | none => false
    let m1 : MetaRec := { base with isdir := base.isdir || isdirStat }
    match dvcMeta with
    | some _ => .ok m1
    | none =>
      .ok { m1 with is_exec := (match statResult with
                                | some st => st.isExec
                                | none => false) }

/-- `RepoTree.info` (repo.py lines 423-429): return the working tree's
low-level info, and on its `FileNotFoundError` return the managed
tree's; with no managed tree that fallback dereferences `None`
(`attrError`). -/
def RepoTree.info (tree : WorkTreeM) (dvcTree : Option DvcTreeM) (path : String) :
    Except Err Nat :=
  match tree.winfo path with
  | some i => .ok i
  | none =>
    match dvcTree with
    | none => .error .attrError
    | some dvc => dvc.dinfo path

/-- C2: for every path, `exists` is true when the working tree reports
the path; otherwise, with a managed tree present, a metadata miss gives
false and a metadata hit with its single covering output answers true
exactly when the output's own root path does not already exist on the
working tree (the shadow rule). -/
theorem exists_shadow_resolution (tree : WorkTreeM) (dvcTree : Option DvcTreeM)
    (path : String) :
    (tree.wexists path = true → RepoTree.existsP tree dvcTree path = .ok true) ∧
    (∀ dvc : DvcTreeM, dvcTree = some dvc → tree.wexists path = false →
      ((dvc.metadata path = none → RepoTree.existsP tree dvcTree path = .ok false) ∧
       (∀ m out, dvc.metadata path = some m → m.outs = [out] →
         RepoTree.existsP tree dvcTree path = .ok (! tree.wexists out.path_info)))) := by
  constructor
  · intro hw
    cases dvcTree with
    | none => simp [RepoTree.existsP, hw]
    | some dvc => simp [RepoTree.existsP, hw]
  · rintro dvc rfl hw
    constructor
    · intro hm
      simp [RepoTree.existsP, hw, hm]
    · rintro m out hm houts
      simp only [RepoTree.existsP, hw, Bool.false_eq_true, if_false, hm, houts]
      cases h : tree.wexists out.path_info <;> simp [h]

/-- Closed instantiation of `exists_shadow_resolution`: a concrete world
exercising the working-tree hit, the metadata miss, and the shadowed and
unshadowed managed hits. -/
theorem exists_shadow_resolution_witness :
    (RepoTree.existsP ⟨fun p => p == "/r/a", fun _ => none, fun _ => none, fun _ => none⟩
        (some ⟨fun p => if p == "/r/b" then some ⟨[⟨"/r/out"⟩], false, true, false⟩ else none,
               fun _ => false, fun _ => false, fun _ => .error .notFound, fun _ => none⟩)
        "/r/a" = .ok true) ∧
    (RepoTree.existsP ⟨fun p => p == "/r/a", fun _ => none, fun _ => none, fun _ => none⟩
        (some ⟨fun p => if p == "/r/b" then some ⟨[⟨"/r/out"⟩], false, true, false⟩ else none,
               fun _ => false, fun _ => false, fun _ => .error .notFound, fun _ => none⟩)
        "/r/c" = .ok false) ∧
    (RepoTree.existsP ⟨fun p => p == "/r/a", fun _ => none, fun _ => none, fun _ => none⟩
        (some ⟨fun p => if p == "/r/b" then some ⟨[⟨"/r/out"⟩], false, true, false⟩ else none,
               fun _ => false, fun _ => false, fun _ => .error .notFound, fun _ => none⟩)
        "/r/b" = .ok true) := by
  refine ⟨?_, ?_, ?_⟩
  · exact (exists_shadow_resolution _ _ _).1 (by rfl)
  · exact (((exists_shadow_resolution _ _ _).2 _ rfl (by rfl)).1 (by rfl))
  · exact (((exists_shadow_resolution _ _ _).2 _ rfl (by rfl)).2 ⟨[⟨"/r/out"⟩], false, true, false⟩
      ⟨"/r/out"⟩ (by rfl) rfl)

/-- Boolean membership in a list of names; models Python's `in` on a
set/list of directory names. -/
def memB (s : String) : List String → Bool
  | [] => false
  | x :: xs => (x == s) || memB s xs

/-- Canonical duplicate removal (keeps the last occurrence of each
name); models the passage through Python `set(...)`, whose enumeration
order is unspecified. -/
def dedupB : List String → List String
  | [] => []
  | x :: xs => if memB x xs then dedupB xs else x :: dedupB xs

/-- Path join, `os.path.join(root, name)` for the relative names the
walk produces. -/
def joinPath (root nm : String) : String := root ++ "/" ++ nm

theorem memB_iff_mem (s : String) (l : List String) : memB s l = true ↔ s ∈ l := by
  induction l with
  | nil => simp [memB]
  | cons x xs ih =>
    simp [memB, ih, List.mem_cons, Bool.or_eq_true, beq_iff_eq]
    exact or_congr_left (by constructor <;> (intro h; exact h.symm))

theorem mem_dedupB (s : String) (l : List String) : s ∈ dedupB l ↔ s ∈ l := by
  induction l with
  | nil => simp [dedupB]
  | cons x xs ih =>
    simp only [dedupB]
    cases hmx : memB x xs with
    | true =>
      have hx : x ∈ xs := (memB_iff_mem x xs).mp hmx
      rw [if_pos rfl, ih, List.mem_cons]
      constructor
      · exact Or.inr
      · rintro (rfl | hs)
        · exact hx
        · exact hs
    | false =>
      rw [if_neg (by simp), List.mem_cons, List.mem_cons, ih]

/-- The file names the managed side of a level contributes: the walk
frame of `dvc_walk` when that side is active, else the empty list. -/
def dvcFnamesOf (dd : Option FsDir) : List String :=
  match dd with
  | some d => d.fileNames
  | none => []

/-- The child directory names the managed side of a level contributes. -/
def dvcDirNamesOf (dd : Option FsDir) : List String :=
  match dd with
  | some d => d.dirNames
  | none => []

/-- `dvc_set = set(dvc_dirs)` of `RepoTree._walk`. -/
def dvcSetOf (dd : Option FsDir) : List String := dedupB (dvcDirNamesOf dd)

/-- `repo_set = set(repo_dirs)` of `RepoTree._walk`. -/
def repoSetOf (rd : FsDir) : List String := dedupB rd.dirNames

/-- `shared = list(dvc_set & repo_set)` of `RepoTree._walk`. -/
def sharedOf (rd : FsDir) (dd : Option FsDir) : List String :=
  (dvcSetOf dd).filter (fun d => memB d (repoSetOf rd))

/-- `dvc_only = list(dvc_set - repo_set)` of `RepoTree._walk`. -/
def dvcOnlyOf (rd : FsDir) (dd : Option FsDir) : List String :=
  (dvcSetOf dd).filter (fun d => ! memB d (repoSetOf rd))

/-- `repo_only = list(repo_set - dvc_set)` of `RepoTree._walk`. -/
def repoOnlyOf (rd : FsDir) (dd : Option FsDir) : List String :=
  (repoSetOf rd).filter (fun d => ! memB d (dvcSetOf dd))

/-- `dirs = shared + dvc_only + repo_only` of `RepoTree._walk`. -/
def dirsOf (rd : FsDir) (dd : Option FsDir) : List String :=
  sharedOf rd dd ++ dvcOnlyOf rd dd ++ repoOnlyOf rd dd

/-- The instance-level surroundings of the merged walk:
`is_valid_filename`/`DvcIgnore.DVCIGNORE_FILE` name filtering (a test on
the file name only), `RepoTree._is_dvc_repo` (the subrepo-marker test,
already `False` whenever subrepo traversal is disabled), and the managed
tree content a fresh `_get_tree_pair` resolves for a subrepo root
(`none` when the subrepo has no managed tree). -/
structure WalkCfg where
  isInternal : String → Bool
  isDvcRepoAt : String → Bool
  dvcAt : String → Option FsDir

/-- `files = set(filter(_func, dvc_fnames + repo_fnames))` of
`RepoTree._walk`: union both sides' file names, keeping a name when the
`dvcfiles` flag is set or the name is not an internal
pipeline/definition/ignore file. -/
def filesOf (cfg : WalkCfg) (dvcfiles : Bool) (rd : FsDir) (dd : Option FsDir) :
    List String :=
  dedupB ((dvcFnamesOf dd ++ rd.fileNames).filter
    (fun f => dvcfiles || ! cfg.isInternal f))

/-- `subrepos = set(filter(is_dvc_repo, repo_only))` of `RepoTree._walk`. -/
def subreposOf (cfg : WalkCfg) (root : String) (rd : FsDir) (dd : Option FsDir) :
    List String :=
  (repoOnlyOf rd dd).filter (fun d => cfg.isDvcRepoAt (joinPath root d))

/-- One level of any walk: the yielded `(root, dirs, files)` triple. -/
structure Frame where
  root : String
  dirs : List String
  files : List String
deriving DecidableEq, Repr

theorem FsDir.sizeOf_childNamed_le (rd : FsDir) (nm : String) :
    sizeOf (rd.childNamed nm) ≤ sizeOf rd := by
  cases rd with
  | node cs fs =>
    simp only [FsDir.childNamed, FsDir.children]
    cases h : cs.find? (fun c => c.1 == nm) with
    | none =>
      have hn : sizeOf (none : Option FsDir) = 1 := by simp
      simp only [Option.map_none', hn, FsDir.node.sizeOf_spec]
      omega
    | some c =>
      have hm : c ∈ cs := List.mem_of_find?_eq_some h
      have h2 : sizeOf c < sizeOf cs := List.sizeOf_lt_of_mem hm
      have h3 : sizeOf c.2 < sizeOf c := by
        obtain ⟨a, b⟩ := c
        simp only [Prod.mk.sizeOf_spec]
        omega
      simp only [Option.map_some', Option.some.sizeOf_spec]
      simp only [FsDir.node.sizeOf_spec]
      omega

/-- `RepoTree._dvc_walk` (repo.py lines 227-234): forward a managed-only
subtree from the managed walk verbatim — one frame for the directory,
then each child subtree in listing order.  No file filtering and no
subrepo handling happens on this path. -/
def rawWalk (root : String) (d : FsDir) : List Frame :=
  Frame.mk root d.dirNames d.fileNames ::
    d.children.attach.flatMap
      (fun c => rawWalk (joinPath root c.1.1) c.1.2)
termination_by sizeOf d
decreasing_by
  cases d with
  | node cs fs =>
    have h2 : sizeOf c.1 < sizeOf cs := by
      have := List.sizeOf_lt_of_mem c.2
      simpa [FsDir.children] using this
    have h3 : sizeOf c.1.2 < sizeOf c.1 := by
      obtain ⟨⟨a, b⟩, hab⟩ := c
      simp only [Prod.mk.sizeOf_spec]
      omega
    simp only [FsDir.node.sizeOf_spec]
    omega

/-- Attach-free unfolding of `rawWalk`. -/
theorem rawWalk_eq (root : String) (d : FsDir) :
    rawWalk root d =
      Frame.mk root d.dirNames d.fileNames ::
        d.children.flatMap (fun c => rawWalk (joinPath root c.1) c.2) := by
  rw [rawWalk]
  congr 1
  have h1 : d.children.flatMap (fun c => rawWalk (joinPath root c.1) c.2) =
      (d.children.attach.map Subtype.val).flatMap
        (fun c => rawWalk (joinPath root c.1) c.2) := by
    rw [List.attach_map_subtype_val]
  rw [h1, List.flatMap_map]

/-- Evaluation of `rawWalk` on a childless directory. -/
theorem rawWalk_leaf (root : String) (fs : List String) :
    rawWalk root (.node [] fs) = [Frame.mk root [] fs] := by
  rw [rawWalk_eq]
  simp [FsDir.children, FsDir.dirNames, FsDir.fileNames]

/-- Forward a managed subtree when the managed side has one at the given
name, else nothing (an exhausted sequence contributes nothing). -/
def rawWalkOpt (root : String) : Option FsDir → List Frame
  | some d => rawWalk root d
  | none => []

/-- The managed-side child with the given name, when the managed side is
active and has it. -/
def childNamedOpt (dd : Option FsDir) (nm : String) : Option FsDir :=
  match dd with
  | some d => d.childNamed nm
  | none => none

/-- `RepoTree._walk` (repo.py lines 252-305), the merged walker.  A
`none` working side models an exhausted/empty `repo_walk` generator,
whose `next` raises `StopIteration` and ends the merge (the managed
sequence, pulled first in the source, is dropped with it).  Otherwise
one level is yielded — the partitioned `shared + dvc_only + repo_only`
child order and the filtered union of both sides' files — and the loop
recurses per child: a `repo_only` subrepo root starts a fresh merge with
a brand-new tree pair (`_subrepo_walk`), a `shared` child advances both
sequences, a `dvc_only` child forwards the managed walk verbatim
(`_dvc_walk`), and a remaining `repo_only` child advances only the
working sequence. -/
def mergedWalk (cfg : WalkCfg) (dvcfiles : Bool) :
    String → Option FsDir → Option FsDir → List Frame
  | _, none, _ => []
  | root, some rd, dd =>
    let dirs := dirsOf rd dd
    let subrepos := subreposOf cfg root rd dd
    Frame.mk root dirs (filesOf cfg dvcfiles rd dd) ::
      dirs.flatMap (fun d =>
        if memB d subrepos then
          mergedWalk cfg dvcfiles (joinPath root d) (rd.childNamed d)
            (cfg.dvcAt (joinPath root d))
        else if memB d (sharedOf rd dd) then
          mergedWalk cfg dvcfiles (joinPath root d) (rd.childNamed d) (childNamedOpt dd d)
        else if memB d (dvcSetOf dd) then
          rawWalkOpt (joinPath root d) (childNamedOpt dd d)
        else if memB d (repoSetOf rd) then
          mergedWalk cfg dvcfiles (joinPath root d) (rd.childNamed d) none
        else [])
termination_by _ rdo _ => sizeOf rdo
decreasing_by
  all_goals
    have h := FsDir.sizeOf_childNamed_le rd d
    simp only [Option.some.sizeOf_spec]
    omega

/-- `RepoTree._subrepo_walk` (repo.py lines 236-250): walk into a nested
repo with a brand-new tree pair rooted at the directory — the working
subtree at that directory and the managed tree the fresh
`_get_tree_pair` resolves for it. -/
def subrepoWalk (cfg : WalkCfg) (dvcfiles : Bool) (dirPath : String)
    (wd : Option FsDir) : List Frame :=
  mergedWalk cfg dvcfiles dirPath wd (cfg.dvcAt dirPath)

/-- What one call of the top-level `RepoTree.walk` produces when no
exception escapes: the errors handed to the `onerror` callback (paired
with the offending path) and the yielded frames. -/
structure WalkOutcome where
  errCalls : List (Err × String)
  frames : List Frame
deriving DecidableEq, Repr

/-- `RepoTree.walk` (repo.py lines 307-365): assert top-down; validate
the start path with `self.exists`/`self.isdir`, on failure invoking the
optional `onerror` callback (modelled by the boolean `onerror`) with
`FileNotFoundError`/`NotADirectoryError` and yielding nothing; then pick
the participating sequences: without a managed tree, or when the start
path is a managed path already materialized on the working tree
(`repo_exists and dvc_tree.isdvc(top)`), merge with no managed side;
when the working root is absent, first forward the managed tree's walk
of `top` verbatim; finally merge the working walk with the managed walk
(the latter active only when the managed tree reports `top`). -/
def RepoTree.walk (cfg : WalkCfg) (tree : WorkTreeM) (dvcTree : Option DvcTreeM)
    (top : String) (topdown : Bool) (onerror : Bool) (dvcfiles : Bool) :
    Except Err WalkOutcome :=
  if !topdown then .error .assertionFailed
  else
    match RepoTree.existsP tree dvcTree top with
    | .error e => .error e
    | .ok false => .ok ⟨if onerror then [(.notFound, top)] else [], []⟩
    | .ok true =>
      match RepoTree.isdir tree dvcTree top with
      | .error e => .error e
      | .ok false => .ok ⟨if onerror then [(.notADirectory, top)] else [], []⟩
      | .ok true =>
        let repoExists := tree.wexists top
        let repoWalk := tree.walkAt top
        match dvcTree with
        | none => .ok ⟨[], mergedWalk cfg dvcfiles top repoWalk none⟩
        | some dvc =>
          if repoExists && dvc.isdvc top then
            .ok ⟨[], mergedWalk cfg dvcfiles top repoWalk none⟩
          else
            let pre := if repoExists then [] else rawWalkOpt top (dvc.walkAt top)
            let dvcWalk := if dvc.dexists top then dvc.walkAt top else none
            .ok ⟨[], pre ++ mergedWalk cfg dvcfiles top repoWalk dvcWalk⟩

theorem memB_true_of_mem {s : String} {l : List String} (h : s ∈ l) : memB s l = true :=
  (memB_iff_mem s l).mpr h

theorem memB_false_of_not_mem {s : String} {l : List String} (h : s ∉ l) :
    memB s l = false := by
  cases hm : memB s l
  · rfl
  · exact absurd ((memB_iff_mem s l).mp hm) h

theorem append_congr {α : Type} {a b c d : List α} (h1 : a = c) (h2 : b = d) :
    a ++ b = c ++ d := by
  rw [h1, h2]

theorem flatMap_congr {α β : Type} {l : List α} {f g : α → List β}
    (h : ∀ x ∈ l, f x = g x) : l.flatMap f = l.flatMap g := by
  induction l with
  | nil => rfl
  | cons a t ih =>
    simp only [List.flatMap_cons]
    rw [h a (List.mem_cons_self a t), ih (fun x hx => h x (List.mem_cons_of_mem a hx))]

theorem mem_sharedOf {d : String} {rd : FsDir} {dd : Option FsDir} :
    d ∈ sharedOf rd dd ↔ d ∈ dvcSetOf dd ∧ d ∈ repoSetOf rd := by
  simp only [sharedOf, List.mem_filter, memB_iff_mem]

theorem mem_dvcOnlyOf {d : String} {rd : FsDir} {dd : Option FsDir} :
    d ∈ dvcOnlyOf rd dd ↔ d ∈ dvcSetOf dd ∧ d ∉ repoSetOf rd := by
  simp only [dvcOnlyOf, List.mem_filter, Bool.not_eq_true', ← memB_iff_mem]
  constructor
  · rintro ⟨h1, h2⟩
    exact ⟨h1, by simp [h2]⟩
  · rintro ⟨h1, h2⟩
    refine ⟨h1, ?_⟩
    cases hm : memB d (repoSetOf rd)
    · rfl
    · exact absurd hm h2

theorem mem_repoOnlyOf {d : String} {rd : FsDir} {dd : Option FsDir} :
    d ∈ repoOnlyOf rd dd ↔ d ∈ repoSetOf rd ∧ d ∉ dvcSetOf dd := by
  simp only [repoOnlyOf, List.mem_filter, Bool.not_eq_true', ← memB_iff_mem]
  constructor
  · rintro ⟨h1, h2⟩
    exact ⟨h1, by simp [h2]⟩
  · rintro ⟨h1, h2⟩
    refine ⟨h1, ?_⟩
    cases hm : memB d (dvcSetOf dd)
    · rfl
    · exact absurd hm h2

theorem mem_subreposOf {cfg : WalkCfg} {root d : String} {rd : FsDir} {dd : Option FsDir} :
    d ∈ subreposOf cfg root rd dd ↔
      d ∈ repoOnlyOf rd dd ∧ cfg.isDvcRepoAt (joinPath root d) = true := by
  simp only [subreposOf, List.mem_filter]

/-- An exhausted working sequence ends the merge at once. -/
theorem mergedWalk_none (cfg : WalkCfg) (dvcfiles : Bool) (root : String)
    (dd : Option FsDir) : mergedWalk cfg dvcfiles root none dd = [] := by
  simp [mergedWalk]

/-- One step of the merged walk, with the per-child branch of the loop
resolved per partition group (proved from the partition's disjointness;
the claim-level statement is `walk_child_recursion_order`). -/
theorem mergedWalk_step (cfg : WalkCfg) (dvcfiles : Bool) (root : String)
    (rd : FsDir) (dd : Option FsDir) :
    mergedWalk cfg dvcfiles root (some rd) dd =
      Frame.mk root (dirsOf rd dd) (filesOf cfg dvcfiles rd dd) ::
        ((sharedOf rd dd).flatMap (fun d =>
            mergedWalk cfg dvcfiles (joinPath root d) (rd.childNamed d)
              (childNamedOpt dd d))
         ++ (dvcOnlyOf rd dd).flatMap (fun d =>
            rawWalkOpt (joinPath root d) (childNamedOpt dd d))
         ++ (repoOnlyOf rd dd).flatMap (fun d =>
            if cfg.isDvcRepoAt (joinPath root d) then
              subrepoWalk cfg dvcfiles (joinPath root d) (rd.childNamed d)
            else
              mergedWalk cfg dvcfiles (joinPath root d) (rd.childNamed d) none)) := by
  rw [mergedWalk]
  congr 1
  rw [dirsOf, List.flatMap_append, List.flatMap_append]
  apply append_congr
  · apply append_congr
    · apply flatMap_congr
      intro d hd
      have hdvc : d ∈ dvcSetOf dd := (mem_sharedOf.mp hd).1
      have hnotsub : d ∉ subreposOf cfg root rd dd := by
        intro hc
        exact (mem_repoOnlyOf.mp (mem_subreposOf.mp hc).1).2 hdvc
      rw [memB_false_of_not_mem hnotsub, memB_true_of_mem hd]
      simp
    · apply flatMap_congr
      intro d hd
      have hdvc : d ∈ dvcSetOf dd := (mem_dvcOnlyOf.mp hd).1
      have hnotrepo : d ∉ repoSetOf rd := (mem_dvcOnlyOf.mp hd).2
      have hnotsub : d ∉ subreposOf cfg root rd dd := by
        intro hc
        exact hnotrepo (mem_repoOnlyOf.mp (mem_subreposOf.mp hc).1).1
      have hnotshared : d ∉ sharedOf rd dd := by
        intro hc
        exact hnotrepo (mem_sharedOf.mp hc).2
      rw [memB_false_of_not_mem hnotsub, memB_false_of_not_mem hnotshared,
        memB_true_of_mem hdvc]
      simp
  · apply flatMap_congr
    intro d hd
    have hrepo : d ∈ repoSetOf rd := (mem_repoOnlyOf.mp hd).1
    have hnotdvc : d ∉ dvcSetOf dd := (mem_repoOnlyOf.mp hd).2
    have hnotshared : d ∉ sharedOf rd dd := by
      intro hc
      exact hnotdvc (mem_sharedOf.mp hc).1
    cases hs : cfg.isDvcRepoAt (joinPath root d) with
    | true =>
      have hsub : d ∈ subreposOf cfg root rd dd := mem_subreposOf.mpr ⟨hd, hs⟩
      rw [memB_true_of_mem hsub]
      simp [subrepoWalk]
    | false =>
      have hnotsub : d ∉ subreposOf cfg root rd dd := by
        intro hc
        rw [(mem_subreposOf.mp hc).2] at hs
        exact Bool.noConfusion hs
      rw [memB_false_of_not_mem hnotsub, memB_false_of_not_mem hnotshared,
        memB_false_of_not_mem hnotdvc, memB_true_of_mem hrepo]
      simp

/-- C1: one step of the merged walk.  After the level's frame, the
recursion visits the children in the fixed order `shared` (advancing
both sequences into the same-named child on each side), then `dvc_only`
(forwarding the managed subtree verbatim, advancing only the managed
sequence), then `repo_only` (advancing only the working sequence), where
a `repo_only` directory that is a subrepo root is not recursed into
ordinarily but walked by a fresh merge over a brand-new tree pair rooted
at that directory (`subrepoWalk`). -/
theorem walk_child_recursion_order (cfg : WalkCfg) (dvcfiles : Bool) (root : String)
    (rd : FsDir) (dd : Option FsDir) :
    mergedWalk cfg dvcfiles root (some rd) dd =
      Frame.mk root (dirsOf rd dd) (filesOf cfg dvcfiles rd dd) ::
        ((sharedOf rd dd).flatMap (fun d =>
            mergedWalk cfg dvcfiles (joinPath root d) (rd.childNamed d)
              (childNamedOpt dd d))
         ++ (dvcOnlyOf rd dd).flatMap (fun d =>
            rawWalkOpt (joinPath root d) (childNamedOpt dd d))
         ++ (repoOnlyOf rd dd).flatMap (fun d =>
            if cfg.isDvcRepoAt (joinPath root d) then
              subrepoWalk cfg dvcfiles (joinPath root d) (rd.childNamed d)
            else
              mergedWalk cfg dvcfiles (joinPath root d) (rd.childNamed d) none)) :=
  mergedWalk_step cfg dvcfiles root rd dd

/-- C10: `walk` supports only top-down traversal — with `topdown=False`
the leading `assert topdown` fires before the root is validated or
anything is yielded, whatever the trees and flags are. -/
theorem walk_topdown_only (cfg : WalkCfg) (tree : WorkTreeM) (dvcTree : Option DvcTreeM)
    (top : String) (onerror dvcfiles : Bool) :
    RepoTree.walk cfg tree dvcTree top false onerror dvcfiles =
      .error .assertionFailed := rfl

/-- C4: an invalid start path never raises out of `walk`: a root that
does not exist reports `FileNotFoundError` to the callback when one is
supplied, a root that is not a directory reports
`NotADirectoryError`, and in both cases (callback or not) the walk
yields no frames. -/
theorem walk_invalid_root (cfg : WalkCfg) (tree : WorkTreeM) (dvcTree : Option DvcTreeM)
    (top : String) (onerror dvcfiles : Bool) :
    (RepoTree.existsP tree dvcTree top = .ok false →
      RepoTree.walk cfg tree dvcTree top true onerror dvcfiles =
        .ok ⟨if onerror then [(.notFound, top)] else [], []⟩) ∧
    (RepoTree.existsP tree dvcTree top = .ok true →
      RepoTree.isdir tree dvcTree top = .ok false →
      RepoTree.walk cfg tree dvcTree top true onerror dvcfiles =
        .ok ⟨if onerror then [(.notADirectory, top)] else [], []⟩) := by
  constructor
  · intro h
    simp [RepoTree.walk, h]
  · intro h1 h2
    simp [RepoTree.walk, h1, h2]

/-- Closed instantiation of `walk_invalid_root`: a missing root with a
callback gets the not-found call and no frames; a plain-file root
without a callback yields nothing at all. -/
theorem walk_invalid_root_witness :
    (RepoTree.walk ⟨fun _ => false, fun _ => false, fun _ => none⟩
      ⟨fun _ => false, fun _ => none, fun _ => none, fun _ => none⟩ none
      "/r/missing" true true false = .ok ⟨[(.notFound, "/r/missing")], []⟩) ∧
    (RepoTree.walk ⟨fun _ => false, fun _ => false, fun _ => none⟩
      ⟨fun _ => true, fun _ => some ⟨false, true, false⟩, fun _ => none, fun _ => none⟩ none
      "/r/file.txt" true false false = .ok ⟨[], []⟩) := by
  constructor
  · exact (walk_invalid_root _ _ _ _ _ _).1 (by rfl)
  · exact (walk_invalid_root _ _ _ _ _ _).2 (by rfl) (by rfl)

/-- C5: when the resolved repo has a managed tree and the start path
passes validation but the working tree does not report it (so the
working walk is empty), the walk is exactly the managed tree's walk of
that path and nothing more: the source first forwards
`dvc_tree.walk(top)` verbatim and the final merge ends immediately on
the exhausted working sequence. -/
theorem walk_absent_working_root (cfg : WalkCfg) (tree : WorkTreeM) (dvc : DvcTreeM)
    (top : String) (onerror dvcfiles : Bool)
    (hex : RepoTree.existsP tree (some dvc) top = .ok true)
    (hdir : RepoTree.isdir tree (some dvc) top = .ok true)
    (habs : tree.wexists top = false)
    (hwalk : tree.walkAt top = none) :
    RepoTree.walk cfg tree (some dvc) top true onerror dvcfiles =
      .ok ⟨[], rawWalkOpt top (dvc.walkAt top)⟩ := by
  simp only [RepoTree.walk, hex, hdir, habs, hwalk, mergedWalk_none, Bool.not_true,
    Bool.false_and, Bool.false_eq_true, if_false, List.append_nil]

/-- Closed instantiation of `walk_absent_working_root`: a start path
that exists only as a managed directory output is walked purely from
the managed sequence. -/
theorem walk_absent_working_root_witness :
    RepoTree.walk ⟨fun _ => false, fun _ => false, fun _ => none⟩
      ⟨fun _ => false, fun _ => none, fun _ => none, fun _ => none⟩
      (some ⟨fun _ => some ⟨[⟨"/r/other"⟩], true, false, false⟩,
             fun _ => true, fun _ => false, fun _ => .error .notFound,
             fun _ => some (.node [] ["x.bin"])⟩)
      "/r/data" true false false =
      .ok ⟨[], [⟨"/r/data", [], ["x.bin"]⟩]⟩ := by
  have h := walk_absent_working_root ⟨fun _ => false, fun _ => false, fun _ => none⟩
    ⟨fun _ => false, fun _ => none, fun _ => none, fun _ => none⟩
    ⟨fun _ => some ⟨[⟨"/r/other"⟩], true, false, false⟩,
     fun _ => true, fun _ => false, fun _ => .error .notFound,
     fun _ => some (.node [] ["x.bin"])⟩
    "/r/data" false false (by rfl) (by rfl) rfl rfl
  rw [h]
  simp only [rawWalkOpt, rawWalk_leaf]

/-- C3 counterexample: the merged walk does NOT apply the internal-name
filter at every level it yields.  With `dvcfiles=False` and an internal
name (here the one the filter predicate recognizes, "Dvcfile") sitting
inside a managed-only subtree, the level under `m` is forwarded verbatim
from the managed walk (`_dvc_walk`) and retains the internal name, while
the claim requires it to be removed at every level. -/
theorem level_files_filtered_union_cex :
    mergedWalk ⟨fun f => f == "Dvcfile", fun _ => false, fun _ => none⟩ false "/r"
      (some (.node [] [])) (some (.node [("m", .node [] ["Dvcfile"])] [])) =
      [⟨"/r", ["m"], []⟩, ⟨"/r/m", [], ["Dvcfile"]⟩] := by
  rw [mergedWalk_step]
  simp [dirsOf, sharedOf, dvcOnlyOf, repoOnlyOf, dvcSetOf, repoSetOf, dvcDirNamesOf,
    filesOf, dvcFnamesOf, FsDir.dirNames, FsDir.children, FsDir.fileNames, dedupB, memB,
    childNamedOpt, FsDir.childNamed, rawWalkOpt, rawWalk_leaf, joinPath]

/-- C3 (amended): at every level yielded by the merge routine itself
(the head frame of every `_walk` recursion, with the recursion levels
given by `mergedWalk_step`), the file set is the union of the
managed-side and working-side file names with duplicates collapsed, a
name surviving exactly when the `dvcfiles` flag is set or the name is
not internal — so with the flag set nothing is filtered.  Levels lying
under managed-only directories are instead forwarded verbatim from the
managed walk and are not filtered (see the counterexample). -/
theorem level_files_filtered_union (cfg : WalkCfg) (dvcfiles : Bool) (root : String)
    (rd : FsDir) (dd : Option FsDir) :
    (mergedWalk cfg dvcfiles root (some rd) dd).head? =
      some (Frame.mk root (dirsOf rd dd) (filesOf cfg dvcfiles rd dd)) ∧
    (∀ f, f ∈ filesOf cfg dvcfiles rd dd ↔
        ((f ∈ dvcFnamesOf dd ∨ f ∈ rd.fileNames) ∧
         (dvcfiles = true ∨ cfg.isInternal f = false))) := by
  constructor
  · rw [mergedWalk]
    rfl
  · intro f
    simp only [filesOf, mem_dedupB, List.mem_filter, List.mem_append, Bool.or_eq_true,
      Bool.not_eq_true']

/-- C6: whenever managed metadata exists for the path, the returned
record is the managed record with its `isdir` OR'd with the working
stat's directory bit (taken as false when the stat fails): a working
directory forces `isdir`, and a managed `isdir=True` is never
downgraded. -/
theorem metadata_isdir_union (tree : WorkTreeM) (dvc : DvcTreeM) (path : String)
    (m : MetaRec) (h : dvc.metadata path = some m) :
    RepoTree.metadata tree (some dvc) path =
      .ok { m with isdir := m.isdir ||
        (match tree.stat path with | some st => st.isDir | none => false) } := by
  cases hs : tree.stat path with
  | none => simp [RepoTree.metadata, h, hs]
  | some st => simp [RepoTree.metadata, h, hs]

/-- Closed instantiation of `metadata_isdir_union`: a managed single-file
output whose path is a directory on disk comes back with `isdir=true`. -/
theorem metadata_isdir_union_witness :
    RepoTree.metadata
      ⟨fun _ => false, fun _ => some ⟨true, false, false⟩, fun _ => none, fun _ => none⟩
      (some ⟨fun _ => some ⟨[⟨"/r/out"⟩], false, true, false⟩, fun _ => true,
             fun _ => false, fun _ => .error .notFound, fun _ => none⟩) "/r/out" =
      .ok ⟨[⟨"/r/out"⟩], true, true, false⟩ := by
  have h := metadata_isdir_union
    ⟨fun _ => false, fun _ => some ⟨true, false, false⟩, fun _ => none, fun _ => none⟩
    ⟨fun _ => some ⟨[⟨"/r/out"⟩], false, true, false⟩, fun _ => true,
     fun _ => false, fun _ => .error .notFound, fun _ => none⟩ "/r/out"
    ⟨[⟨"/r/out"⟩], false, true, false⟩ (by rfl)
  simpa using h

/-- C7: `info` answers with the working tree's low-level info whenever
the working tree resolves the path, otherwise returns whatever the
managed tree's `info` returns — in particular a managed not-found error
propagates to the caller when neither tree has the path. -/
theorem info_fallback (tree : WorkTreeM) (dvc : DvcTreeM) (path : String) :
    (∀ i, tree.winfo path = some i → RepoTree.info tree (some dvc) path = .ok i) ∧
    (tree.winfo path = none → RepoTree.info tree (some dvc) path = dvc.dinfo path) ∧
    (tree.winfo path = none → dvc.dinfo path = .error .notFound →
      RepoTree.info tree (some dvc) path = .error .notFound) := by
  refine ⟨?_, ?_, ?_⟩
  · intro i hi
    simp [RepoTree.info, hi]
  · intro hn
    simp [RepoTree.info, hn]
  · intro hn hd
    simp [RepoTree.info, hn, hd]

/-- Closed instantiation of `info_fallback`: a working-tree hit wins,
and with both trees missing the path the managed not-found escapes. -/
theorem info_fallback_witness :
    (RepoTree.info ⟨fun _ => false, fun _ => none, fun _ => some 7, fun _ => none⟩
      (some ⟨fun _ => none, fun _ => false, fun _ => false, fun _ => .ok 3, fun _ => none⟩)
      "/r/a" = .ok 7) ∧
    (RepoTree.info ⟨fun _ => false, fun _ => none, fun _ => none, fun _ => none⟩
      (some ⟨fun _ => none, fun _ => false, fun _ => false, fun _ => .error .notFound,
             fun _ => none⟩) "/r/b" = .error .notFound) := by
  constructor
  · exact (info_fallback _ _ _).1 7 (by rfl)
  · exact (info_fallback _ _ _).2.2 (by rfl) (by rfl)

/-- C9 counterexample: a path whose managed metadata reports two
covering outputs does NOT always make `exists` fail — when the working
tree already reports the path, `exists` returns `True` before the
metadata cardinality is ever inspected. -/
theorem outs_cardinality_fatal_cex :
    RepoTree.existsP ⟨fun _ => true, fun _ => none, fun _ => none, fun _ => none⟩
      (some ⟨fun _ => some ⟨[⟨"/r/o1"⟩, ⟨"/r/o2"⟩], false, false, false⟩, fun _ => false,
             fun _ => false, fun _ => .error .notFound, fun _ => none⟩) "/r/x" =
      .ok true := rfl

/-- C9 (amended): when the working-tree check does not already settle
the call — `exists` with the path absent from the working tree,
`isdir`/`isfile` with a failed stat — and managed metadata is found with
a number of covering outputs different from one, the tuple unpacking
`(out,) = meta.outs` raises fatally and no result is returned. -/
theorem outs_cardinality_fatal (tree : WorkTreeM) (dvc : DvcTreeM) (path : String)
    (m : MetaRec) (hm : dvc.metadata path = some m) (hlen : m.outs.length ≠ 1) :
    (tree.wexists path = false →
      RepoTree.existsP tree (some dvc) path = .error .invariant) ∧
    (tree.stat path = none →
      RepoTree.isdir tree (some dvc) path = .error .invariant ∧
      RepoTree.isfile tree (some dvc) path = .error .invariant) := by
  constructor
  · intro hw
    rcases ho : m.outs with _ | ⟨a, _ | ⟨b, t⟩⟩
    · simp [RepoTree.existsP, hw, hm, ho]
    · rw [ho] at hlen
      simp at hlen
    · simp [RepoTree.existsP, hw, hm, ho]
  · intro hs
    rcases ho : m.outs with _ | ⟨a, _ | ⟨b, t⟩⟩
    · constructor <;> simp [RepoTree.isdir, RepoTree.isfile, hs, hm, ho]
    · rw [ho] at hlen
      simp at hlen
    · constructor <;> simp [RepoTree.isdir, RepoTree.isfile, hs, hm, ho]

/-- Closed instantiation of `outs_cardinality_fatal`: with the path
absent from the working tree and metadata carrying two outputs, all
three operations raise the invariant violation. -/
theorem outs_cardinality_fatal_witness :
    (RepoTree.existsP ⟨fun _ => false, fun _ => none, fun _ => none, fun _ => none⟩
      (some ⟨fun _ => some ⟨[⟨"/r/o1"⟩, ⟨"/r/o2"⟩], false, false, false⟩, fun _ => false,
             fun _ => false, fun _ => .error .notFound, fun _ => none⟩) "/r/x" =
      .error .invariant) ∧
    (RepoTree.isdir ⟨fun _ => false, fun _ => none, fun _ => none, fun _ => none⟩
      (some ⟨fun _ => some ⟨[⟨"/r/o1"⟩, ⟨"/r/o2"⟩], false, false, false⟩, fun _ => false,
             fun _ => false, fun _ => .error .notFound, fun _ => none⟩) "/r/x" =
      .error .invariant) ∧
    (RepoTree.isfile ⟨fun _ => false, fun _ => none, fun _ => none, fun _ => none⟩
      (some ⟨fun _ => some ⟨[⟨"/r/o1"⟩, ⟨"/r/o2"⟩], false, false, false⟩, fun _ => false,
             fun _ => false, fun _ => .error .notFound, fun _ => none⟩) "/r/x" =
      .error .invariant) := by
  have h := outs_cardinality_fatal
    ⟨fun _ => false, fun _ => none, fun _ => none, fun _ => none⟩
    ⟨fun _ => some ⟨[⟨"/r/o1"⟩, ⟨"/r/o2"⟩], false, false, false⟩, fun _ => false,
     fun _ => false, fun _ => .error .notFound, fun _ => none⟩ "/r/x"
    ⟨[⟨"/r/o1"⟩, ⟨"/r/o2"⟩], false, false, false⟩ (by rfl) (by decide)
  exact ⟨h.1 rfl, (h.2 rfl).1, (h.2 rfl).2⟩

/-- A path as its component list from the filesystem root; models the
string paths `PathStringTrie` keys at component granularity (the trie
splits keys on the path separator). -/
abbrev RPath := List String

/-- The fixed surroundings of `RepoTree._get_repo`/`_update`:
`_is_dvc_repo` (already `False` whenever subrepo traversal is disabled)
and the injected `repo_factory`.  Handles are opaque (`Nat`); the
factory is a deterministic handle per root path, and what matters for
the claims — whether the factory is invoked — is recorded explicitly as
a call log. -/
structure Resolver where
  isDvcRepoAt : RPath → Bool
  factory : RPath → Nat

/-- The `PathStringTrie` state of `_subrepos_trie`: path-keyed repo
handles; the newest binding wins lookups. -/
structure TrieSt where
  entries : List (RPath × Nat)
deriving DecidableEq, Repr

/-- Exact trie lookup (`self._subrepos_trie.get(path)`). -/
def trieGet (t : TrieSt) (p : RPath) : Option Nat :=
  (t.entries.find? (fun e => e.1 == p)).map (fun e => e.2)

/-- Trie write (`self._subrepos_trie[d] = repo`). -/
def trieIns (t : TrieSt) (p : RPath) (r : Nat) : TrieSt :=
  ⟨(p, r) :: t.entries⟩

/-- `self._subrepos_trie.longest_prefix(path)`: among the entries whose
key is a prefix of the path, one with a key of maximal length; `none`
when no entry prefixes the path. -/
def longestPrefixEntry (p : RPath) : List (RPath × Nat) → Option (RPath × Nat)
  | [] => none
  | e :: rest =>
    let r := longestPrefixEntry p rest
    if e.1.isPrefixOf p then
      match r with
      | none => some e
      | some b => if b.1.length < e.1.length then some e else some b
    else r

/-- The proper ancestors `p.take (k-1), ..., p.take 0` of a path. -/
def parentsAux (p : RPath) : Nat → List RPath
  | 0 => []
  | k + 1 => p.take k :: parentsAux p k

/-- `PathInfo(path).parents`: the proper ancestors of a path, nearest
first, ending at the filesystem root (the empty component list). -/
def parentsOf (p : RPath) : List RPath := parentsAux p p.length

/-- `RepoTree._update` (repo.py lines 88-101), the lock-guarded
discovery pass: walk the directories root-to-leaf carrying the running
handle; a directory holding the repo marker gets a fresh handle from the
factory (logged as a call), every directory gets its (possibly
inherited) handle written to the trie.  The write-once managed-tree
index `_dvctrees` is populated alongside in the source and is not
modelled here. -/
def updateDirs (R : Resolver) : List RPath → Nat → TrieSt → TrieSt × List RPath
  | [], _, t => (t, [])
  | d :: rest, repo, t =>
    if R.isDvcRepoAt d then
      let res := updateDirs R rest (R.factory d) (trieIns t d (R.factory d))
      (res.1, d :: res.2)
    else
      updateDirs R rest repo (trieIns t d repo)

/-- `RepoTree._get_repo` (repo.py lines 66-86): exact trie hit answers
at once; otherwise find the nearest recorded ancestor by longest prefix
(no prefix at all fails resolution), enumerate the directories from just
below that prefix down to the path itself, run the discovery pass over
them, and answer with the freshly recorded entry.  Returns the resolved
handle, the new trie and the log of factory invocations. -/
def getRepo (R : Resolver) (t : TrieSt) (p : RPath) :
    Option Nat × TrieSt × List RPath :=
  match trieGet t p with
  | some r => (some r, t, [])
  | none =>
    match longestPrefixEntry p t.entries with
    | none => (none, t, [])
    | some pre =>
      let dirs := (p :: (parentsOf p).takeWhile (fun q => ! (q == pre.1))).reverse
      (trieGet (updateDirs R dirs pre.2 t).1 p,
       (updateDirs R dirs pre.2 t).1, (updateDirs R dirs pre.2 t).2)

theorem trieGet_ins (t : TrieSt) (q k : RPath) (r : Nat) :
    trieGet (trieIns t q r) k = if q = k then some r else trieGet t k := by
  by_cases h : q = k
  · subst h
    simp [trieGet, trieIns, List.find?_cons]
  · have hb : (q == k) = false := by
      simp [h]
    simp [trieGet, trieIns, List.find?_cons, hb, h]

theorem trieGet_none_key (t : TrieSt) (p : RPath) (h : trieGet t p = none) :
    ∀ e ∈ t.entries, e.1 ≠ p := by
  intro e he
  simp only [trieGet, Option.map_eq_none'] at h
  have := List.find?_eq_none.mp h e he
  simpa using this

theorem trieGet_some_key (t : TrieSt) (k : RPath) (v : Nat) (h : trieGet t k = some v) :
    ∃ e ∈ t.entries, e.1 = k := by
  simp only [trieGet, Option.map_eq_some'] at h
  obtain ⟨e, he, _⟩ := h
  have hmem := List.mem_of_find?_eq_some he
  have hpred := List.find?_some he
  exact ⟨e, hmem, by simpa using hpred⟩

theorem updateDirs_preserves (R : Resolver) (ds : List RPath) :
    ∀ (rep : Nat) (t : TrieSt) (k : RPath) (v : Nat),
      trieGet t k = some v → k ∉ ds →
      trieGet (updateDirs R ds rep t).1 k = some v := by
  induction ds with
  | nil =>
    intro rep t k v hk _
    simpa [updateDirs] using hk
  | cons d rest ih =>
    intro rep t k v hk hnot
    have hdk : d ≠ k := by
      intro h
      exact hnot (by rw [← h]; exact List.mem_cons_self d rest)
    have hk2 : ∀ r, trieGet (trieIns t d r) k = some v := by
      intro r
      rw [trieGet_ins]
      simp [hdk, hk]
    have hrest : k ∉ rest := fun hm => hnot (List.mem_cons_of_mem d hm)
    simp only [updateDirs]
    by_cases hdv : R.isDvcRepoAt d = true
    · simp only [hdv, if_true]
      exact ih (R.factory d) (trieIns t d (R.factory d)) k v (hk2 _) hrest
    · simp only [Bool.not_eq_true] at hdv
      simp only [hdv, Bool.false_eq_true, if_false]
      exact ih rep (trieIns t d rep) k v (hk2 _) hrest

theorem updateDirs_keeps_bound (R : Resolver) (ds : List RPath) :
    ∀ (rep : Nat) (t : TrieSt) (k : RPath) (v : Nat),
      trieGet t k = some v →
      ∃ w, trieGet (updateDirs R ds rep t).1 k = some w := by
  induction ds with
  | nil =>
    intro rep t k v hk
    exact ⟨v, by simpa [updateDirs] using hk⟩
  | cons d rest ih =>
    intro rep t k v hk
    have hbound : ∀ r, ∃ u, trieGet (trieIns t d r) k = some u := by
      intro r
      by_cases hdk : d = k
      · subst hdk
        exact ⟨r, by rw [trieGet_ins]; simp⟩
      · exact ⟨v, by rw [trieGet_ins]; simp [hdk, hk]⟩
    simp only [updateDirs]
    by_cases hdv : R.isDvcRepoAt d = true
    · simp only [hdv, if_true]
      obtain ⟨u, hu⟩ := hbound (R.factory d)
      exact ih (R.factory d) (trieIns t d (R.factory d)) k u hu
    · simp only [Bool.not_eq_true] at hdv
      simp only [hdv, Bool.false_eq_true, if_false]
      obtain ⟨u, hu⟩ := hbound rep
      exact ih rep (trieIns t d rep) k u hu

theorem updateDirs_writes (R : Resolver) (ds : List RPath) :
    ∀ (rep : Nat) (t : TrieSt) (k : RPath), k ∈ ds →
      ∃ w, trieGet (updateDirs R ds rep t).1 k = some w := by
  induction ds with
  | nil =>
    intro _ _ _ h
    cases h
  | cons d rest ih =>
    intro rep t k hk
    by_cases hmem : k ∈ rest
    · simp only [updateDirs]
      by_cases hdv : R.isDvcRepoAt d = true
      · simp only [hdv, if_true]
        exact ih (R.factory d) (trieIns t d (R.factory d)) k hmem
      · simp only [Bool.not_eq_true] at hdv
        simp only [hdv, Bool.false_eq_true, if_false]
        exact ih rep (trieIns t d rep) k hmem
    · have hdk : d = k := by
        rcases List.mem_cons.mp hk with h | h
        · exact h.symm
        · exact absurd h hmem
      subst hdk
      have hbound : ∀ r, trieGet (trieIns t d r) d = some r := by
        intro r
        rw [trieGet_ins]
        simp
      simp only [updateDirs]
      by_cases hdv : R.isDvcRepoAt d = true
      · simp only [hdv, if_true]
        exact updateDirs_keeps_bound R rest (R.factory d) (trieIns t d (R.factory d)) d
          (R.factory d) (hbound _)
      · simp only [Bool.not_eq_true] at hdv
        simp only [hdv, Bool.false_eq_true, if_false]
        exact updateDirs_keeps_bound R rest rep (trieIns t d rep) d rep (hbound _)

theorem longestPrefixEntry_none (p : RPath) :
    ∀ l, longestPrefixEntry p l = none → ∀ q ∈ l, q.1.isPrefixOf p = false := by
  intro l
  induction l with
  | nil =>
    intro _ q hq
    cases hq
  | cons a rest ih =>
    intro h q hq
    simp only [longestPrefixEntry] at h
    by_cases ha : a.1.isPrefixOf p = true
    · rw [if_pos ha] at h
      cases hr : longestPrefixEntry p rest with
      | none => rw [hr] at h; cases h
      | some b =>
        rw [hr] at h
        dsimp only at h
        split at h <;> cases h
    · rw [if_neg ha] at h
      rcases List.mem_cons.mp hq with rfl | hq'
      · exact Bool.not_eq_true _ |>.mp ha
      · exact ih h q hq'

theorem longestPrefixEntry_spec (p : RPath) :
    ∀ (l : List (RPath × Nat)) (e : RPath × Nat), longestPrefixEntry p l = some e →
      e ∈ l ∧ e.1.isPrefixOf p = true ∧
        ∀ q ∈ l, q.1.isPrefixOf p = true → q.1.length ≤ e.1.length := by
  intro l
  induction l with
  | nil =>
    intro e h
    cases h
  | cons a rest ih =>
    intro e h
    simp only [longestPrefixEntry] at h
    by_cases ha : a.1.isPrefixOf p = true
    · rw [if_pos ha] at h
      cases hr : longestPrefixEntry p rest with
      | none =>
        rw [hr] at h
        cases h
        refine ⟨List.mem_cons_self a rest, ha, ?_⟩
        intro q hq hqp
        rcases List.mem_cons.mp hq with rfl | hq'
        · exact le_refl _
        · rw [longestPrefixEntry_none p rest hr q hq'] at hqp
          cases hqp
      | some b =>
        rw [hr] at h
        dsimp only at h
        obtain ⟨hbmem, hbpre, hbmax⟩ := ih b hr
        by_cases hlen : b.1.length < a.1.length
        · rw [if_pos hlen] at h
          cases h
          refine ⟨List.mem_cons_self a rest, ha, ?_⟩
          intro q hq hqp
          rcases List.mem_cons.mp hq with rfl | hq'
          · exact le_refl _
          · exact le_trans (hbmax q hq' hqp) (le_of_lt hlen)
        · rw [if_neg hlen] at h
          cases h
          refine ⟨List.mem_cons_of_mem a hbmem, hbpre, ?_⟩
          intro q hq hqp
          rcases List.mem_cons.mp hq with rfl | hq'
          · exact le_of_not_lt hlen
          · exact hbmax q hq' hqp
    · rw [if_neg ha] at h
      obtain ⟨hm, hp, hmax⟩ := ih e h
      refine ⟨List.mem_cons_of_mem a hm, hp, ?_⟩
      intro q hq hqp
      rcases List.mem_cons.mp hq with rfl | hq'
      · exact absurd hqp ha
      · exact hmax q hq' hqp

theorem takeWhile_parents_spec (p pre : RPath) (hpre : p.take pre.length = pre) :
    ∀ k, pre.length < k → k ≤ p.length →
      ∀ q ∈ (parentsAux p k).takeWhile (fun x => ! (x == pre)),
        ∃ j, pre.length < j ∧ j < k ∧ q = p.take j := by
  intro k
  induction k with
  | zero =>
    intro h
    exact absurd h (Nat.not_lt_zero _)
  | succ n ih =>
    intro hlow hub q hq
    simp only [parentsAux] at hq
    by_cases hn : pre.length = n
    · have hhead : p.take n = pre := by rw [← hn, hpre]
      rw [List.takeWhile_cons, hhead] at hq
      simp at hq
    · have hlow2 : pre.length < n := by omega
      have hlen : (p.take n).length = n := by
        rw [List.length_take]
        omega
      have hne : p.take n ≠ pre := by
        intro h
        have hc := congrArg List.length h
        rw [hlen] at hc
        exact hn hc.symm
      have hcond : (p.take n == pre) = false := by
        simp [hne]
      rw [List.takeWhile_cons, hcond] at hq
      simp only [Bool.not_false, if_true, List.mem_cons] at hq
      rcases hq with rfl | hq'
      · exact ⟨n, hlow2, Nat.lt_succ_self n, rfl⟩
      · obtain ⟨j, h1, h2, h3⟩ := ih hlow2 (by omega) q hq'
        exact ⟨j, h1, by omega, h3⟩

theorem dirs_fresh_keys (p pre : RPath) (hpre : p.take pre.length = pre)
    (hlt : pre.length < p.length) :
    ∀ q ∈ (p :: (parentsOf p).takeWhile (fun x => ! (x == pre))).reverse,
      q.isPrefixOf p = true ∧ pre.length < q.length := by
  intro q hq
  rw [List.mem_reverse] at hq
  rcases List.mem_cons.mp hq with rfl | hq'
  · exact ⟨List.isPrefixOf_iff_prefix.mpr (List.prefix_refl q), hlt⟩
  · obtain ⟨j, h1, h2, rfl⟩ := takeWhile_parents_spec p pre hpre p.length hlt (le_refl _) q hq'
    constructor
    · exact List.isPrefixOf_iff_prefix.mpr (List.take_prefix j p)
    · rw [List.length_take]
      omega

/-- C8: path-to-repo resolution is idempotent and the trie only grows.
A second `_get_repo` on the same path returns the same handle, leaves
the trie unchanged and performs no factory invocation (the discovery
pass of the first call recorded the path, so the second is an exact
hit); and no trie entry existing before a call is ever removed or
replaced by it — the discovery pass only writes keys strictly below the
longest recorded prefix, which cannot already be keys. -/
theorem resolve_idempotent (R : Resolver) (t : TrieSt) (p : RPath) :
    (getRepo R (getRepo R t p).2.1 p).1 = (getRepo R t p).1 ∧
    (getRepo R (getRepo R t p).2.1 p).2.1 = (getRepo R t p).2.1 ∧
    (getRepo R (getRepo R t p).2.1 p).2.2 = [] ∧
    (∀ k v, trieGet t k = some v → trieGet (getRepo R t p).2.1 k = some v) := by
  cases h1 : trieGet t p with
  | some r =>
    have hfirst : getRepo R t p = (some r, t, []) := by
      simp [getRepo, h1]
    rw [hfirst]
    dsimp only
    refine ⟨?_, ?_, ?_, ?_⟩
    · simp [getRepo, h1]
    · simp [getRepo, h1]
    · simp [getRepo, h1]
    · intro k v hk
      exact hk
  | none =>
    cases h2 : longestPrefixEntry p t.entries with
    | none =>
      have hfirst : getRepo R t p = (none, t, []) := by
        simp [getRepo, h1, h2]
      rw [hfirst]
      dsimp only
      refine ⟨?_, ?_, ?_, ?_⟩
      · simp [getRepo, h1, h2]
      · simp [getRepo, h1, h2]
      · simp [getRepo, h1, h2]
      · intro k v hk
        exact hk
    | some pre =>
      obtain ⟨hmem, hpreb, hmax⟩ := longestPrefixEntry_spec p t.entries pre h2
      have hkeys := trieGet_none_key t p h1
      have hne : pre.1 ≠ p := hkeys pre hmem
      have hprefix := List.isPrefixOf_iff_prefix.mp hpreb
      have htake : p.take pre.1.length = pre.1 := (List.prefix_iff_eq_take.mp hprefix).symm
      have hlt : pre.1.length < p.length := by
        rcases Nat.lt_or_ge pre.1.length p.length with h | h
        · exact h
        · exact absurd (List.IsPrefix.eq_of_length hprefix
            (le_antisymm hprefix.length_le h)) hne
      have hp_in : p ∈ (p :: (parentsOf p).takeWhile (fun x => ! (x == pre.1))).reverse := by
        rw [List.mem_reverse]
        exact List.mem_cons_self _ _
      obtain ⟨w, hw⟩ := updateDirs_writes R
        ((p :: (parentsOf p).takeWhile (fun x => ! (x == pre.1))).reverse) pre.2 t p hp_in
      have hfirst : getRepo R t p =
          (some w,
           (updateDirs R ((p :: (parentsOf p).takeWhile
             (fun x => ! (x == pre.1))).reverse) pre.2 t).1,
           (updateDirs R ((p :: (parentsOf p).takeWhile
             (fun x => ! (x == pre.1))).reverse) pre.2 t).2) := by
        simp only [getRepo, h1, h2]
        rw [hw]
      have hsecond : getRepo R (updateDirs R ((p :: (parentsOf p).takeWhile
            (fun x => ! (x == pre.1))).reverse) pre.2 t).1 p =
          (some w,
           (updateDirs R ((p :: (parentsOf p).takeWhile
             (fun x => ! (x == pre.1))).reverse) pre.2 t).1, []) := by
        simp only [getRepo]
        rw [hw]
      rw [hfirst]
      dsimp only
      refine ⟨?_, ?_, ?_, ?_⟩
      · rw [hsecond]
      · rw [hsecond]
      · rw [hsecond]
      · intro k v hk
        have hknot : k ∉ (p :: (parentsOf p).takeWhile (fun x => ! (x == pre.1))).reverse := by
          intro hkd
          obtain ⟨hpref, hlen⟩ := dirs_fresh_keys p pre.1 htake hlt k hkd
          obtain ⟨e, he, hek⟩ := trieGet_some_key t k v hk
          have hle := hmax e he (by rw [hek]; exact hpref)
          rw [hek] at hle
          omega
        exact updateDirs_preserves R
          ((p :: (parentsOf p).takeWhile (fun x => ! (x == pre.1))).reverse) pre.2 t k v hk hknot

/-- A concrete resolver: the marker sits at `r/sub`, the factory hands
out handle 7. -/
def resolverEx : Resolver := ⟨fun q => q == ["r", "sub"], fun _ => 7⟩

/-- A concrete starting trie holding only the main root `r`, handle 1. -/
def trieEx : TrieSt := ⟨[(["r"], 1)]⟩

/-- Closed instantiation of `resolve_idempotent`: resolving
`r/sub/f` discovers the subrepo at `r/sub`; the second resolution
returns the same handle with the same trie and no factory call, and the
pre-existing entry for the main root `r` still answers. -/
theorem resolve_idempotent_witness :
    (getRepo resolverEx (getRepo resolverEx trieEx ["r", "sub", "f"]).2.1
        ["r", "sub", "f"]).1 =
      (getRepo resolverEx trieEx ["r", "sub", "f"]).1 ∧
    (getRepo resolverEx (getRepo resolverEx trieEx ["r", "sub", "f"]).2.1
        ["r", "sub", "f"]).2.1 =
      (getRepo resolverEx trieEx ["r", "sub", "f"]).2.1 ∧
    (getRepo resolverEx (getRepo resolverEx trieEx ["r", "sub", "f"]).2.1
        ["r", "sub", "f"]).2.2 = [] ∧
    trieGet (getRepo resolverEx trieEx ["r", "sub", "f"]).2.1 ["r"] = some 1 := by
  obtain ⟨h1, h2, h3, h4⟩ := resolve_idempotent resolverEx trieEx ["r", "sub", "f"]
  exact ⟨h1, h2, h3, h4 ["r"] 1 (by rfl)⟩
